import Mathlib

/-!
Verification of the `splatpack` CLI (`splatpack/cli.py`) against its
natural-language specification.

The Python program is shallowly embedded: paths are lists of components
(`PathC`), the filesystem seen by `Path.rglob` is a list of entries, the
external `darktable-cli` converter is an oracle function from input path to
exit outcome, and the straight-line body of `main()` becomes a pure function
producing the ordered list of filesystem-mutation events plus an optional
fatal error message.  Every definition below is translated from the source;
the one definition translated from the spec's own words instead
(`iter_dngs_spec`) is marked as such and is only used to compare the spec's
claimed discovery order with the code's.
-/

namespace Splatpack

/-- A filesystem path, as its list of components below the root.
`[]` stands for `/`, `["Users"]` for `/Users`, and so on.  Python's
`pathlib.Path` equality on resolved POSIX paths is componentwise equality. -/
abbrev PathC := List String

/-! ### Python string primitives used by `cli.py` -/

/-- Python `str.strip()`: remove leading and trailing whitespace. -/
def pyStrip (l : List Char) : List Char :=
  ((l.dropWhile Char.isWhitespace).reverse.dropWhile Char.isWhitespace).reverse

/-- The characters `safe_name` keeps unchanged (cli.py line 214):
`ch.isalnum() or ch in ("_", ".", " ")`.  Python's Unicode `isalnum` is
rendered by `Char.isAlphanum`; the claims under verification only depend on
the predicate being the same one at every occurrence. -/
def allowedChar (c : Char) : Bool :=
  c.isAlphanum || c = '_' || c = '.' || c = ' '

/-- The character map of `safe_name` (cli.py lines 213-217): keep an allowed
character, replace everything else by an underscore. -/
def mapAllowed (l : List Char) : List Char :=
  l.map fun ch => if allowedChar ch then ch else '_'

/-- One evaluation of Python `safe.replace("  ", " ")`: replace each
non-overlapping occurrence of two spaces by one space, left to right. -/
def replacePairs : List Char → List Char
  | [] => []
  | [c] => [c]
  | c :: d :: rest =>
      if c = ' ' ∧ d = ' ' then ' ' :: replacePairs rest
      else c :: replacePairs (d :: rest)

/-- Python `"  " in safe`: the list contains two adjacent spaces. -/
def hasPair : List Char → Bool
  | [] => false
  | [_] => false
  | c :: d :: rest => (c = ' ' && d = ' ') || hasPair (d :: rest)

/-- The `while "  " in safe: safe = safe.replace("  ", " ")` loop of
`safe_name` (cli.py lines 221-222), run with an explicit iteration bound.
Each productive iteration shortens the list, so `l.length` iterations always
reach the loop's exit condition (`hasPair_collapseAux` below). -/
def collapseAux : Nat → List Char → List Char
  | 0, l => l
  | fuel + 1, l => if hasPair l then collapseAux fuel (replacePairs l) else l

/-- The double-space collapsing loop of `safe_name`, at its sufficient bound. -/
def collapseSpaces (l : List Char) : List Char :=
  collapseAux l.length l

/-- `safe_name` from cli.py lines 199-223: trim, fall back to `"dataset"` when
nothing remains, map disallowed characters to underscores, trim again and
collapse repeated spaces. -/
def safe_name (text : String) : String :=
  let t := pyStrip text.data
  if t = [] then "dataset"
  else String.mk (collapseSpaces (pyStrip (mapAllowed t)))

/-! ### Lemmas about `replacePairs` and the collapsing loop -/

theorem replacePairs_length_le (l : List Char) : (replacePairs l).length ≤ l.length := by
  induction l using replacePairs.induct with
  | case1 => simp [replacePairs]
  | case2 c => simp [replacePairs]
  | case3 c d rest h ih =>
      simp only [replacePairs, if_pos h, List.length_cons]
      omega
  | case4 c d rest h ih =>
      simp only [replacePairs, if_neg h, List.length_cons] at *
      omega

theorem replacePairs_length_lt (l : List Char) (h : hasPair l = true) :
    (replacePairs l).length < l.length := by
  induction l using replacePairs.induct with
  | case1 => simp [hasPair] at h
  | case2 c => simp [hasPair] at h
  | case3 c d rest hcd ih =>
      have := replacePairs_length_le rest
      simp only [replacePairs, if_pos hcd, List.length_cons]
      omega
  | case4 c d rest hcd ih =>
      have hr : hasPair (d :: rest) = true := by
        rw [hasPair] at h
        rcases Bool.or_eq_true_iff.mp h with h' | h'
        · rcases Bool.and_eq_true_iff.mp h' with ⟨h1, h2⟩
          exact absurd ⟨of_decide_eq_true h1, of_decide_eq_true h2⟩ hcd
        · exact h'
      have := ih hr
      simp only [replacePairs, if_neg hcd, List.length_cons] at *
      omega

theorem mem_replacePairs {c : Char} {l : List Char} (h : c ∈ replacePairs l) : c ∈ l := by
  induction l using replacePairs.induct with
  | case1 => simp [replacePairs] at h
  | case2 d => simpa [replacePairs] using h
  | case3 a d rest hcd ih =>
      rw [replacePairs, if_pos hcd] at h
      rcases List.mem_cons.mp h with h | h
      · simp [h, hcd.1]
      · simp [ih h]
  | case4 a d rest hcd ih =>
      rw [replacePairs, if_neg hcd] at h
      rcases List.mem_cons.mp h with h | h
      · simp [h]
      · simp [ih h]

theorem replacePairs_head? (l : List Char) : (replacePairs l).head? = l.head? := by
  induction l using replacePairs.induct with
  | case1 => rfl
  | case2 c => rfl
  | case3 a d rest hcd ih => rw [replacePairs, if_pos hcd]; simp [hcd.1]
  | case4 a d rest hcd ih => rw [replacePairs, if_neg hcd]; simp

theorem replacePairs_ne_nil {l : List Char} (h : l ≠ []) : replacePairs l ≠ [] := by
  induction l using replacePairs.induct with
  | case1 => exact absurd rfl h
  | case2 c => simp [replacePairs]
  | case3 a d rest hcd ih => rw [replacePairs, if_pos hcd]; simp
  | case4 a d rest hcd ih => rw [replacePairs, if_neg hcd]; simp

theorem getLast?_cons_of_ne_nil {α : Type} {l : List α} (a : α) (h : l ≠ []) :
    (a :: l).getLast? = l.getLast? := by
  cases l with
  | nil => exact absurd rfl h
  | cons b bs => exact List.getLast?_cons_cons

theorem replacePairs_getLast? (l : List Char) : (replacePairs l).getLast? = l.getLast? := by
  induction l using replacePairs.induct with
  | case1 => rfl
  | case2 c => rfl
  | case3 a d rest hcd ih =>
      rw [replacePairs, if_pos hcd]
      cases rest with
      | nil => simp [replacePairs, hcd.2]
      | cons e es =>
          have h1 : replacePairs (e :: es) ≠ [] := replacePairs_ne_nil (by simp)
          rw [getLast?_cons_of_ne_nil _ h1, ih,
            List.getLast?_cons_cons, List.getLast?_cons_cons]
  | case4 a d rest hcd ih =>
      rw [replacePairs, if_neg hcd]
      have h1 : replacePairs (d :: rest) ≠ [] := replacePairs_ne_nil (by simp)
      rw [getLast?_cons_of_ne_nil _ h1, ih, List.getLast?_cons_cons]

theorem hasPair_collapseAux (fuel : Nat) (l : List Char) (h : l.length ≤ fuel) :
    hasPair (collapseAux fuel l) = false := by
  induction fuel generalizing l with
  | zero =>
      have : l = [] := List.length_eq_zero.mp (Nat.le_zero.mp h)
      subst this; rfl
  | succ n ih =>
      rw [collapseAux]
      by_cases hp : hasPair l = true
      · rw [if_pos hp]
        exact ih _ (by have := replacePairs_length_lt l hp; omega)
      · rw [if_neg hp]
        exact Bool.not_eq_true _ ▸ hp

theorem collapseAux_of_hasPair_false {l : List Char} (fuel : Nat)
    (h : hasPair l = false) : collapseAux fuel l = l := by
  cases fuel with
  | zero => rfl
  | succ n => simp [collapseAux, h]

theorem mem_collapseAux {c : Char} {l : List Char} (fuel : Nat)
    (h : c ∈ collapseAux fuel l) : c ∈ l := by
  induction fuel generalizing l with
  | zero => exact h
  | succ n ih =>
      rw [collapseAux] at h
      split at h
      · exact mem_replacePairs (ih h)
      · exact h

theorem collapseAux_head? (fuel : Nat) (l : List Char) :
    (collapseAux fuel l).head? = l.head? := by
  induction fuel generalizing l with
  | zero => rfl
  | succ n ih =>
      rw [collapseAux]
      split
      · rw [ih, replacePairs_head?]
      · rfl

theorem collapseAux_getLast? (fuel : Nat) (l : List Char) :
    (collapseAux fuel l).getLast? = l.getLast? := by
  induction fuel generalizing l with
  | zero => rfl
  | succ n ih =>
      rw [collapseAux]
      split
      · rw [ih, replacePairs_getLast?]
      · rfl

theorem collapseAux_ne_nil {l : List Char} (fuel : Nat) (h : l ≠ []) :
    collapseAux fuel l ≠ [] := by
  induction fuel generalizing l with
  | zero => exact h
  | succ n ih =>
      rw [collapseAux]
      split
      · exact ih (replacePairs_ne_nil h)
      · exact h

theorem hasPair_mem_space {l : List Char} (h : hasPair l = true) : ' ' ∈ l := by
  induction l using hasPair.induct with
  | case1 => simp [hasPair] at h
  | case2 c => simp [hasPair] at h
  | case3 c d rest ih =>
      rw [hasPair] at h
      rcases Bool.or_eq_true_iff.mp h with h' | h'
      · rcases Bool.and_eq_true_iff.mp h' with ⟨h1, _⟩
        simp [of_decide_eq_true h1]
      · exact List.mem_cons_of_mem _ (ih h')

/-! ### Lemmas about `pyStrip` -/

theorem head?_dropWhile_not {α : Type} {p : α → Bool} {l : List α} {c : α}
    (h : (l.dropWhile p).head? = some c) : p c = false := by
  induction l with
  | nil => simp [List.dropWhile] at h
  | cons a l ih =>
      rw [List.dropWhile_cons] at h
      split at h
      · exact ih h
      · cases h
        simp_all

theorem dropWhile_eq_self_of_head {α : Type} {p : α → Bool} {l : List α} {c : α}
    (hh : l.head? = some c) (hc : p c = false) : l.dropWhile p = l := by
  cases l with
  | nil => rfl
  | cons a l =>
      cases hh
      rw [List.dropWhile_cons, if_neg (by simp [hc])]

theorem mem_pyStrip {c : Char} {l : List Char} (h : c ∈ pyStrip l) : c ∈ l := by
  unfold pyStrip at h
  rw [List.mem_reverse] at h
  have h2 := (List.dropWhile_sublist Char.isWhitespace).mem h
  rw [List.mem_reverse] at h2
  exact (List.dropWhile_sublist Char.isWhitespace).mem h2

theorem mem_dropWhile_of_not {α : Type} [DecidableEq α] {p : α → Bool} {l : List α} {c : α}
    (h : c ∈ l) (hc : p c = false) : c ∈ l.dropWhile p := by
  induction l with
  | nil => simp at h
  | cons a l ih =>
      rw [List.dropWhile_cons]
      split
      · rcases List.mem_cons.mp h with h' | h'
        · subst h'; simp_all
        · exact ih h'
      · exact h

theorem mem_pyStrip_of_not_ws {c : Char} {l : List Char} (h : c ∈ l)
    (hc : c.isWhitespace = false) : c ∈ pyStrip l := by
  unfold pyStrip
  rw [List.mem_reverse]
  exact mem_dropWhile_of_not (List.mem_reverse.mpr (mem_dropWhile_of_not h hc)) hc

theorem pyStrip_append_decomp (l : List Char) :
    ∃ t, l.dropWhile Char.isWhitespace = pyStrip l ++ t ∧
      ∀ c ∈ t, c.isWhitespace = true := by
  unfold pyStrip
  set u := l.dropWhile Char.isWhitespace with hu
  refine ⟨(u.reverse.takeWhile Char.isWhitespace).reverse, ?_, ?_⟩
  · have := List.takeWhile_append_dropWhile Char.isWhitespace u.reverse
    calc u = u.reverse.reverse := (List.reverse_reverse u).symm
    _ = (u.reverse.takeWhile Char.isWhitespace ++ u.reverse.dropWhile Char.isWhitespace).reverse := by
        rw [this]
    _ = (u.reverse.dropWhile Char.isWhitespace).reverse ++
          (u.reverse.takeWhile Char.isWhitespace).reverse := by
        rw [List.reverse_append]
  · intro c hc
    rw [List.mem_reverse] at hc
    exact List.mem_takeWhile_imp hc

theorem head?_pyStrip_not_ws {c : Char} {l : List Char}
    (h : (pyStrip l).head? = some c) : c.isWhitespace = false := by
  obtain ⟨t, hdec, _⟩ := pyStrip_append_decomp l
  have hne : pyStrip l ≠ [] := by
    intro hnil
    rw [hnil] at h
    simp at h
  have : (l.dropWhile Char.isWhitespace).head? = some c := by
    rw [hdec]
    cases hps : pyStrip l with
    | nil => exact absurd hps hne
    | cons a as =>
        rw [hps] at h
        cases h
        rfl
  exact head?_dropWhile_not this

theorem getLast?_pyStrip_not_ws {c : Char} {l : List Char}
    (h : (pyStrip l).getLast? = some c) : c.isWhitespace = false := by
  unfold pyStrip at h
  rw [List.getLast?_reverse] at h
  exact head?_dropWhile_not h

theorem pyStrip_eq_self {l : List Char} {a b : Char}
    (hh : l.head? = some a) (ha : a.isWhitespace = false)
    (hl : l.getLast? = some b) (hb : b.isWhitespace = false) : pyStrip l = l := by
  unfold pyStrip
  rw [dropWhile_eq_self_of_head hh ha]
  rw [dropWhile_eq_self_of_head (by rw [List.head?_reverse]; exact hl) hb]
  exact List.reverse_reverse l

/-! ### Lemmas about `mapAllowed` and `safe_name` -/

theorem mem_mapAllowed_allowed {c : Char} {l : List Char} (h : c ∈ mapAllowed l) :
    allowedChar c = true := by
  unfold mapAllowed at h
  obtain ⟨a, _, ha⟩ := List.mem_map.mp h
  by_cases hall : allowedChar a = true
  · rw [if_pos hall] at ha
    exact ha ▸ hall
  · rw [if_neg hall] at ha
    exact ha ▸ (by decide)

theorem allowed_ws_eq_space {c : Char} (ha : allowedChar c = true)
    (hw : c.isWhitespace = true) : c = ' ' := by
  have hw' : (c = ' ' || c = '\t' || c = '\r' || c = '\n') = true := hw
  rcases Bool.or_eq_true_iff.mp hw' with h | h
  rcases Bool.or_eq_true_iff.mp h with h' | h'
  rcases Bool.or_eq_true_iff.mp h' with h'' | h''
  · exact of_decide_eq_true h''
  · rw [of_decide_eq_true h''] at ha
    exact absurd ha (by decide)
  · rw [of_decide_eq_true h'] at ha
    exact absurd ha (by decide)
  · rw [of_decide_eq_true h] at ha
    exact absurd ha (by decide)

theorem mapAllowedF_not_ws {c : Char} (h : c.isWhitespace = false) :
    (if allowedChar c then c else '_').isWhitespace = false := by
  split
  · exact h
  · decide

theorem mapAllowed_eq_self {l : List Char} (h : ∀ c ∈ l, allowedChar c = true) :
    mapAllowed l = l := by
  unfold mapAllowed
  induction l with
  | nil => rfl
  | cons a l ih =>
      rw [List.map_cons, if_pos (h a (List.mem_cons_self a l)),
        ih fun c hc => h c (List.mem_cons_of_mem a hc)]

theorem pyStrip_mapAllowed_eq {l : List Char} (h : pyStrip l ≠ []) :
    pyStrip (mapAllowed (pyStrip l)) = mapAllowed (pyStrip l) := by
  set t := pyStrip l with ht
  obtain ⟨a, hha⟩ := Option.isSome_iff_exists.mp (Option.isSome_iff_ne_none.mpr
    (fun hn => h (List.head?_eq_none_iff.mp hn)))
  obtain ⟨b, hlb⟩ := Option.isSome_iff_exists.mp (Option.isSome_iff_ne_none.mpr
    (fun hn => h (List.getLast?_eq_none_iff.mp hn)))
  have hm : (mapAllowed t).head? = some (if allowedChar a then a else '_') := by
    unfold mapAllowed
    rw [List.head?_map, hha]
    rfl
  have hml : (mapAllowed t).getLast? = some (if allowedChar b then b else '_') := by
    unfold mapAllowed
    rw [List.getLast?_map, hlb]
    rfl
  exact pyStrip_eq_self hm (mapAllowedF_not_ws (head?_pyStrip_not_ws hha))
    hml (mapAllowedF_not_ws (getLast?_pyStrip_not_ws hlb))

theorem safe_name_of_strip_nil {s : String} (h : pyStrip s.data = []) :
    safe_name s = "dataset" := by
  unfold safe_name
  rw [if_pos h]

theorem safe_name_of_strip_ne_nil {s : String} (h : pyStrip s.data ≠ []) :
    safe_name s = String.mk (collapseSpaces (mapAllowed (pyStrip s.data))) := by
  unfold safe_name
  rw [if_neg h, pyStrip_mapAllowed_eq h]

theorem mapAllowed_ne_nil {l : List Char} (h : l ≠ []) : mapAllowed l ≠ [] := by
  unfold mapAllowed
  simpa using h

theorem safe_name_data_props (s : String) (h : pyStrip s.data ≠ []) :
    (safe_name s).data = collapseSpaces (mapAllowed (pyStrip s.data)) ∧
    (safe_name s).data ≠ [] ∧
    (∀ c ∈ (safe_name s).data, allowedChar c = true) ∧
    hasPair (safe_name s).data = false := by
  rw [safe_name_of_strip_ne_nil h]
  refine ⟨rfl, ?_, ?_, ?_⟩
  · exact collapseAux_ne_nil _ (mapAllowed_ne_nil h)
  · intro c hc
    exact mem_mapAllowed_allowed (mem_collapseAux _ hc)
  · exact hasPair_collapseAux _ _ (Nat.le_refl _)

theorem safe_name_never_empty (s : String) : safe_name s ≠ "" := by
  by_cases h : pyStrip s.data = []
  · rw [safe_name_of_strip_nil h]
    decide
  · have hd := (safe_name_data_props s h).2.1
    intro hcon
    exact hd (by rw [hcon])

/-- Whitespace characters survive the `safe_name` pipeline only as `' '`:
every character of the output is allowed, and the loop/strips never introduce
new characters. -/
theorem safe_name_ws_mem_space {s : String} {c : Char}
    (h : pyStrip s.data ≠ []) (hc : c ∈ (safe_name s).data)
    (hw : c.isWhitespace = true) : c = ' ' :=
  allowed_ws_eq_space ((safe_name_data_props s h).2.2.1 c hc) hw

theorem safe_name_idem (s : String) : safe_name (safe_name s) = safe_name s := by
  by_cases h : pyStrip s.data = []
  · rw [safe_name_of_strip_nil h]
    decide
  · obtain ⟨hdata, hne, hall, hpair⟩ := safe_name_data_props s h
    set v := (safe_name s).data with hv
    obtain ⟨a, hha⟩ := Option.isSome_iff_exists.mp (Option.isSome_iff_ne_none.mpr
      (fun hn => hne (List.head?_eq_none_iff.mp hn)))
    obtain ⟨b, hlb⟩ := Option.isSome_iff_exists.mp (Option.isSome_iff_ne_none.mpr
      (fun hn => hne (List.getLast?_eq_none_iff.mp hn)))
    have haw : a.isWhitespace = false := by
      rw [hdata] at hha
      have h1 : (mapAllowed (pyStrip s.data)).head? = some a := by
        rw [← collapseAux_head? (mapAllowed (pyStrip s.data)).length]
        exact hha
      obtain ⟨a0, hha0⟩ := Option.isSome_iff_exists.mp (Option.isSome_iff_ne_none.mpr
        (fun hn => h (List.head?_eq_none_iff.mp hn)))
      rw [mapAllowed, List.head?_map, hha0] at h1
      cases h1
      exact mapAllowedF_not_ws (head?_pyStrip_not_ws hha0)
    have hbw : b.isWhitespace = false := by
      rw [hdata] at hlb
      have h1 : (mapAllowed (pyStrip s.data)).getLast? = some b := by
        rw [← collapseAux_getLast? (mapAllowed (pyStrip s.data)).length]
        exact hlb
      obtain ⟨b0, hlb0⟩ := Option.isSome_iff_exists.mp (Option.isSome_iff_ne_none.mpr
        (fun hn => h (List.getLast?_eq_none_iff.mp hn)))
      rw [mapAllowed, List.getLast?_map, hlb0] at h1
      cases h1
      exact mapAllowedF_not_ws (getLast?_pyStrip_not_ws hlb0)
    have hstrip : pyStrip v = v := pyStrip_eq_self hha haw hlb hbw
    have hmap : mapAllowed v = v := mapAllowed_eq_self hall
    have hmkdata : ∀ t : String, String.mk t.data = t := fun t => by cases t; rfl
    have hstrip2 : pyStrip (safe_name s).data ≠ [] := by
      rw [← hv, hstrip]
      exact hne
    rw [safe_name_of_strip_ne_nil hstrip2, ← hv, hstrip, hmap,
      collapseSpaces, collapseAux_of_hasPair_false _ hpair, hv, hmkdata]

theorem safe_name_all_disallowed {s : String} (_hne : s.data ≠ [])
    (hdis : ∀ c ∈ s.data, allowedChar c = false)
    (hsome : ∃ c ∈ s.data, c.isWhitespace = false) :
    (safe_name s).data ≠ [] ∧ ∀ c ∈ (safe_name s).data, c = '_' := by
  obtain ⟨c0, hc0m, hc0w⟩ := hsome
  have hts : pyStrip s.data ≠ [] := by
    intro hcon
    exact (List.eq_nil_iff_forall_not_mem.mp hcon c0) (mem_pyStrip_of_not_ws hc0m hc0w)
  have hall_ : ∀ x ∈ mapAllowed (pyStrip s.data), x = '_' := by
    intro x hx
    obtain ⟨a, ham, hax⟩ := List.mem_map.mp hx
    rw [if_neg (by rw [hdis a (mem_pyStrip ham)]; simp)] at hax
    exact hax.symm
  have hnopair : hasPair (mapAllowed (pyStrip s.data)) = false := by
    cases hhp : hasPair (mapAllowed (pyStrip s.data)) with
    | false => rfl
    | true => exact absurd (hall_ ' ' (hasPair_mem_space hhp)) (by decide)
  rw [safe_name_of_strip_ne_nil hts]
  rw [collapseSpaces, collapseAux_of_hasPair_false _ hnopair]
  exact ⟨mapAllowed_ne_nil hts, hall_⟩

/-! ### Output naming: Python `f"{seq_name}_{export_index:06d}.jpg"` -/

/-- Decimal digits of `n`, most significant first, computed with the
structural fuel `fuel ≥ number of digits`.  Empty for `n = 0` (handled by
`natDecimal`). -/
def natDecimalAux : Nat → Nat → List Char
  | 0, _ => []
  | fuel + 1, n =>
      if n = 0 then []
      else natDecimalAux fuel (n / 10) ++ [Nat.digitChar (n % 10)]

/-- Python `str(n)` for a natural number. -/
def natDecimal (n : Nat) : List Char :=
  if n = 0 then ['0'] else natDecimalAux n n

/-- Python format `f"{n:06d}"`: pad the decimal form to at least 6 digits
with leading zeros. -/
def pad6 (n : Nat) : List Char :=
  List.replicate (6 - (natDecimal n).length) '0' ++ natDecimal n

/-- The output filename built at cli.py line 470:
`f"{seq_name}_{export_index:06d}.jpg"`. -/
def mkName (seqName : String) (idx : Nat) : String :=
  seqName ++ "_" ++ String.mk (pad6 idx) ++ ".jpg"

/-- Reads a digit string back as a number; a left inverse used to show the
padded counters are injective. -/
def charsVal (l : List Char) : Nat :=
  l.foldl (fun a c => a * 10 + (c.toNat - 48)) 0

theorem digitChar_toNat {d : Nat} (h : d < 10) : (Nat.digitChar d).toNat = 48 + d := by
  interval_cases d <;> decide

theorem charsVal_natDecimalAux (fuel : Nat) :
    ∀ n a, n < 10 ^ fuel →
      List.foldl (fun a c => a * 10 + (c.toNat - 48)) a (natDecimalAux fuel n) =
        a * 10 ^ (natDecimalAux fuel n).length + n := by
  induction fuel with
  | zero =>
      intro n a h
      interval_cases n
      simp [natDecimalAux]
  | succ m ih =>
      intro n a h
      rw [natDecimalAux]
      by_cases hn : n = 0
      · simp [hn]
      · rw [if_neg hn, List.foldl_append,
          ih (n / 10) a (Nat.div_lt_of_lt_mul (by rw [Nat.mul_comm, ← Nat.pow_succ] at *; omega))]
        simp only [List.foldl_cons, List.foldl_nil, List.length_append, List.length_cons,
          List.length_nil]
        rw [digitChar_toNat (Nat.mod_lt n (by omega))]
        have : 48 + n % 10 - 48 = n % 10 := by omega
        rw [this, Nat.pow_succ]
        have hmod := Nat.div_add_mod n 10
        ring_nf
        omega

theorem charsVal_natDecimal (n : Nat) : charsVal (natDecimal n) = n := by
  unfold natDecimal charsVal
  by_cases hn : n = 0
  · simp [hn]
  · rw [if_neg hn, charsVal_natDecimalAux n n 0 (Nat.lt_pow_self (by omega) n)]
    simp

theorem charsVal_pad6 (n : Nat) : charsVal (pad6 n) = n := by
  unfold pad6 charsVal
  rw [List.foldl_append]
  have hz : ∀ k, List.foldl (fun a c => a * 10 + (c.toNat - 48)) 0
      (List.replicate k '0') = 0 := by
    intro k
    induction k with
    | zero => rfl
    | succ m ih => simpa [List.replicate_succ] using ih
  rw [hz]
  exact charsVal_natDecimal n

theorem pad6_inj {m n : Nat} (h : pad6 m = pad6 n) : m = n := by
  have := congrArg charsVal h
  rwa [charsVal_pad6, charsVal_pad6] at this

theorem mem_natDecimalAux_digit {c : Char} (fuel n : Nat)
    (h : c ∈ natDecimalAux fuel n) : ∃ d, d < 10 ∧ c = Nat.digitChar d := by
  induction fuel generalizing n with
  | zero => simp [natDecimalAux] at h
  | succ m ih =>
      rw [natDecimalAux] at h
      split at h
      · simp at h
      · rcases List.mem_append.mp h with h' | h'
        · exact ih _ h'
        · exact ⟨n % 10, Nat.mod_lt n (by omega), by simpa using h'⟩

theorem pad6_no_underscore (n : Nat) : '_' ∉ pad6 n := by
  intro h
  rcases List.mem_append.mp h with h' | h'
  · have := List.eq_of_mem_replicate h'
    exact absurd this (by decide)
  · unfold natDecimal at h'
    split at h'
    · simp at h'
    · obtain ⟨d, hd, hc⟩ := mem_natDecimalAux_digit n n h'
      revert hc
      interval_cases d <;> decide

/-- The part of a character list after its last underscore. -/
def tailAfterUnderscore : List Char → List Char
  | [] => []
  | c :: cs => if c = '_' ∧ '_' ∉ cs then cs else tailAfterUnderscore cs

theorem tailAfterUnderscore_spec (a : List Char) {p : List Char} (hp : '_' ∉ p) :
    tailAfterUnderscore (a ++ '_' :: p) = p := by
  induction a with
  | nil => simp [tailAfterUnderscore, hp]
  | cons x xs ih =>
      rw [List.cons_append, tailAfterUnderscore,
        if_neg (by simp only [List.mem_append, List.mem_cons]; tauto), ih]

theorem string_data_append (s t : String) : (s ++ t).data = s.data ++ t.data := by
  cases s
  cases t
  rfl

theorem mkName_inj_idx {s t : String} {i j : Nat} (h : mkName s i = mkName t j) :
    i = j := by
  unfold mkName at h
  have hd := congrArg String.data h
  rw [string_data_append, string_data_append, string_data_append,
    string_data_append, string_data_append, string_data_append] at hd
  have hnount : ∀ n : Nat, '_' ∉ (String.mk (pad6 n)).data ++ (".jpg" : String).data := by
    intro n hmem
    rcases List.mem_append.mp hmem with h' | h'
    · exact pad6_no_underscore n h'
    · exact absurd h' (by decide)
  have h1 : s.data ++ '_' :: ((String.mk (pad6 i)).data ++ (".jpg" : String).data) =
      t.data ++ '_' :: ((String.mk (pad6 j)).data ++ (".jpg" : String).data) := by
    simpa [List.append_assoc] using hd
  have h2 := congrArg tailAfterUnderscore h1
  rw [tailAfterUnderscore_spec _ (hnount i), tailAfterUnderscore_spec _ (hnount j)] at h2
  exact pad6_inj (List.append_cancel_right h2)

/-! ### The export loop of `main()` (cli.py lines 453-491) -/

/-- Python `Path.name`: the final path component (empty for the root). -/
def pathName (p : PathC) : String := p.getLastD ""

/-- The inner `for f in files` loop: one `(export_index, out_name)` pair per
file, with the counter incremented before use, exactly as in cli.py lines
468-470. -/
def exportFiles (seqName : String) : List PathC → Nat → List (Nat × String)
  | [], _ => []
  | _ :: fs, idx => (idx + 1, mkName seqName (idx + 1)) :: exportFiles seqName fs (idx + 1)

/-- The outer `for parent_dir, files in groups` loop of cli.py lines 465-491,
threading the single global counter across groups. -/
def exportLoop : List (PathC × List PathC) → Nat → List (Nat × String)
  | [], _ => []
  | (parent, files) :: rest, idx =>
      exportFiles (safe_name (pathName parent)) files idx ++
        exportLoop rest (idx + files.length)

/-- Total number of input files across all groups. -/
def totalFiles (gs : List (PathC × List PathC)) : Nat :=
  (gs.map fun g => g.2.length).sum

theorem exportFiles_fst (seqName : String) (fs : List PathC) (idx : Nat) :
    (exportFiles seqName fs idx).map Prod.fst = List.range' (idx + 1) fs.length := by
  induction fs generalizing idx with
  | nil => rfl
  | cons f fs ih =>
      rw [exportFiles, List.map_cons, ih, List.length_cons, List.range'_succ]

theorem exportLoop_fst (gs : List (PathC × List PathC)) (idx : Nat) :
    (exportLoop gs idx).map Prod.fst = List.range' (idx + 1) (totalFiles gs) := by
  induction gs generalizing idx with
  | nil => rfl
  | cons g rest ih =>
      obtain ⟨parent, files⟩ := g
      rw [exportLoop, List.map_append, exportFiles_fst, ih]
      have hap := List.range'_append (idx + 1) files.length (totalFiles rest) 1
      simp only [Nat.one_mul] at hap
      rw [show idx + files.length + 1 = idx + 1 + files.length by omega, hap]
      simp only [totalFiles, List.map_cons, List.sum_cons]
      exact congrArg (List.range' (idx + 1)) (Nat.add_comm _ _)

theorem exportFiles_form {seqName : String} {fs : List PathC} {idx : Nat}
    {pr : Nat × String} (h : pr ∈ exportFiles seqName fs idx) :
    pr.2 = mkName seqName pr.1 := by
  induction fs generalizing idx with
  | nil => simp [exportFiles] at h
  | cons f fs ih =>
      rw [exportFiles] at h
      rcases List.mem_cons.mp h with h' | h'
      · rw [h']
      · exact ih h'

theorem exportLoop_form {gs : List (PathC × List PathC)} {idx : Nat}
    {pr : Nat × String} (h : pr ∈ exportLoop gs idx) :
    ∃ g ∈ gs, pr.2 = mkName (safe_name (pathName g.1)) pr.1 := by
  induction gs generalizing idx with
  | nil => simp [exportLoop] at h
  | cons g rest ih =>
      obtain ⟨parent, files⟩ := g
      rw [exportLoop] at h
      rcases List.mem_append.mp h with h' | h'
      · exact ⟨(parent, files), List.mem_cons_self _ _, exportFiles_form h'⟩
      · obtain ⟨g', hg', hform⟩ := ih h'
        exact ⟨g', List.mem_cons_of_mem _ hg', hform⟩

theorem exportLoop_snd_nodup (gs : List (PathC × List PathC)) :
    ((exportLoop gs 0).map Prod.snd).Nodup := by
  have hfst : ((exportLoop gs 0).map Prod.fst).Nodup := by
    rw [exportLoop_fst]
    exact List.nodup_range' _ _
  rw [List.Nodup, List.pairwise_map] at hfst ⊢
  refine hfst.imp_of_mem ?_
  intro a b ha hb hne hcon
  obtain ⟨ga, _, hfa⟩ := exportLoop_form ha
  obtain ⟨gb, _, hfb⟩ := exportLoop_form hb
  rw [hfa, hfb] at hcon
  exact hne (mkName_inj_idx hcon)

/-! ### Orders used by Python: string comparison and `Path` (tuple-of-parts)
comparison -/

/-- Python string `<`: lexicographic by code point. -/
def strLtB : List Char → List Char → Bool
  | [], [] => false
  | [], _ :: _ => true
  | _ :: _, [] => false
  | a :: as, b :: bs => if a = b then strLtB as bs else decide (a < b)

/-- Python string `<=`. -/
def strLeB (a b : List Char) : Bool := strLtB a b || decide (a = b)

theorem strLtB_irrefl (a : List Char) : strLtB a a = false := by
  induction a with
  | nil => rfl
  | cons c cs ih => simp [strLtB, ih]

theorem strLtB_trichotomy (a b : List Char) :
    a = b ∨ strLtB a b = true ∨ strLtB b a = true := by
  induction a generalizing b with
  | nil => cases b <;> simp [strLtB]
  | cons c cs ih =>
      cases b with
      | nil => simp [strLtB]
      | cons d ds =>
          by_cases hcd : c = d
          · subst hcd
            rcases ih ds with h | h | h
            · exact Or.inl (by rw [h])
            · exact Or.inr (Or.inl (by simp [strLtB, h]))
            · exact Or.inr (Or.inr (by simp [strLtB, h]))
          · rcases lt_trichotomy c d with h | h | h
            · exact Or.inr (Or.inl (by simp [strLtB, hcd, h]))
            · exact absurd h hcd
            · refine Or.inr (Or.inr ?_)
              rw [strLtB, if_neg fun hdc => hcd hdc.symm]
              simpa using h

theorem strLtB_asymm {a b : List Char} (h : strLtB a b = true) : strLtB b a = false := by
  induction a generalizing b with
  | nil =>
      cases b with
      | nil => simp [strLtB] at h
      | cons d ds => rfl
  | cons c cs ih =>
      cases b with
      | nil => simp [strLtB] at h
      | cons d ds =>
          by_cases hcd : c = d
          · subst hcd
            rw [strLtB, if_pos rfl] at h ⊢
            exact ih h
          · rw [strLtB, if_neg hcd] at h
            rw [strLtB, if_neg fun hdc => hcd hdc.symm]
            simp only [decide_eq_true_eq] at h
            simpa using lt_asymm h

theorem strLtB_trans {a b c : List Char} (h1 : strLtB a b = true)
    (h2 : strLtB b c = true) : strLtB a c = true := by
  induction a generalizing b c with
  | nil =>
      cases c with
      | nil =>
          cases b with
          | nil => exact h1
          | cons d ds => simp [strLtB] at h2
      | cons e es => rfl
  | cons x xs ih =>
      cases b with
      | nil => simp [strLtB] at h1
      | cons y ys =>
          cases c with
          | nil => simp [strLtB] at h2
          | cons z zs =>
              by_cases hxy : x = y
              · subst hxy
                rw [strLtB, if_pos rfl] at h1
                by_cases hyz : x = z
                · subst hyz
                  rw [strLtB, if_pos rfl] at h2 ⊢
                  exact ih h1 h2
                · rw [strLtB, if_neg hyz] at h2 ⊢
                  exact h2
              · rw [strLtB, if_neg hxy] at h1
                simp only [decide_eq_true_eq] at h1
                by_cases hyz : y = z
                · subst hyz
                  rw [strLtB, if_neg hxy]
                  simpa using h1
                · rw [strLtB, if_neg hyz] at h2
                  simp only [decide_eq_true_eq] at h2
                  have hxz : x < z := lt_trans h1 h2
                  rw [strLtB, if_neg (ne_of_lt hxz)]
                  simpa using hxz

theorem strLeB_refl (a : List Char) : strLeB a a = true := by
  simp [strLeB]

theorem strLeB_total (a b : List Char) : strLeB a b = true ∨ strLeB b a = true := by
  rcases strLtB_trichotomy a b with h | h | h
  · subst h
    exact Or.inl (strLeB_refl a)
  · exact Or.inl (by simp [strLeB, h])
  · exact Or.inr (by simp [strLeB, h])

theorem strLeB_antisymm {a b : List Char} (h1 : strLeB a b = true)
    (h2 : strLeB b a = true) : a = b := by
  unfold strLeB at h1 h2
  rcases Bool.or_eq_true_iff.mp h1 with hlt1 | heq1
  · rcases Bool.or_eq_true_iff.mp h2 with hlt2 | heq2
    · rw [strLtB_asymm hlt1] at hlt2
      exact absurd hlt2 (by simp)
    · exact (of_decide_eq_true heq2).symm
  · exact of_decide_eq_true heq1

theorem strLeB_trans {a b c : List Char} (h1 : strLeB a b = true)
    (h2 : strLeB b c = true) : strLeB a c = true := by
  unfold strLeB at h1 h2 ⊢
  rcases Bool.or_eq_true_iff.mp h1 with hlt1 | heq1
  · rcases Bool.or_eq_true_iff.mp h2 with hlt2 | heq2
    · simp [strLtB_trans hlt1 hlt2]
    · rw [← of_decide_eq_true heq2]
      simp [hlt1]
  · rw [of_decide_eq_true heq1]
    exact h2

/-- The comparison behind sorting a Python `list[Path]`: `PurePath.__lt__`
compares the tuples of path components (CPython `_cparts`), componentwise by
string comparison. -/
def partsLeB : PathC → PathC → Bool
  | [], _ => true
  | _ :: _, [] => false
  | a :: as, b :: bs => if a = b then partsLeB as bs else strLtB a.data b.data

theorem string_eq_of_data_eq {a b : String} (h : a.data = b.data) : a = b := by
  cases a
  cases b
  simp only at h
  rw [h]

theorem partsLeB_refl (a : PathC) : partsLeB a a = true := by
  induction a with
  | nil => rfl
  | cons c cs ih => simp [partsLeB, ih]

theorem partsLeB_total (a b : PathC) : partsLeB a b = true ∨ partsLeB b a = true := by
  induction a generalizing b with
  | nil => exact Or.inl rfl
  | cons c cs ih =>
      cases b with
      | nil => exact Or.inr rfl
      | cons d ds =>
          by_cases hcd : c = d
          · subst hcd
            rcases ih ds with h | h
            · exact Or.inl (by simp [partsLeB, h])
            · exact Or.inr (by simp [partsLeB, h])
          · have hdc : d ≠ c := fun h => hcd h.symm
            have hne : c.data ≠ d.data := fun h => hcd (string_eq_of_data_eq h)
            rcases strLtB_trichotomy c.data d.data with h | h | h
            · exact absurd h hne
            · exact Or.inl (by rw [partsLeB, if_neg hcd]; exact h)
            · exact Or.inr (by rw [partsLeB, if_neg hdc]; exact h)

theorem partsLeB_antisymm {a b : PathC} (h1 : partsLeB a b = true)
    (h2 : partsLeB b a = true) : a = b := by
  induction a generalizing b with
  | nil =>
      cases b with
      | nil => rfl
      | cons d ds => simp [partsLeB] at h2
  | cons c cs ih =>
      cases b with
      | nil => simp [partsLeB] at h1
      | cons d ds =>
          by_cases hcd : c = d
          · subst hcd
            rw [partsLeB, if_pos rfl] at h1 h2
            rw [ih h1 h2]
          · rw [partsLeB, if_neg hcd] at h1
            rw [partsLeB, if_neg fun h => hcd h.symm] at h2
            rw [strLtB_asymm h1] at h2
            exact absurd h2 (by simp)

theorem partsLeB_trans {a b c : PathC} (h1 : partsLeB a b = true)
    (h2 : partsLeB b c = true) : partsLeB a c = true := by
  induction a generalizing b c with
  | nil => rfl
  | cons x xs ih =>
      cases b with
      | nil => simp [partsLeB] at h1
      | cons y ys =>
          cases c with
          | nil => simp [partsLeB] at h2
          | cons z zs =>
              by_cases hxy : x = y
              · subst hxy
                rw [partsLeB, if_pos rfl] at h1
                by_cases hyz : x = z
                · subst hyz
                  rw [partsLeB, if_pos rfl] at h2 ⊢
                  exact ih h1 h2
                · rw [partsLeB, if_neg hyz] at h2 ⊢
                  exact h2
              · rw [partsLeB, if_neg hxy] at h1
                by_cases hyz : y = z
                · subst hyz
                  rw [partsLeB, if_neg hxy]
                  exact h1
                · rw [partsLeB, if_neg hyz] at h2
                  have hxz : strLtB x.data z.data = true := strLtB_trans h1 h2
                  have hxzne : x ≠ z := by
                    intro h
                    subst h
                    rw [strLtB_irrefl] at hxz
                    exact absurd hxz (by simp)
                  rw [partsLeB, if_neg hxzne]
                  exact hxz

/-- The order in which Python sorts `Path` objects, as a proposition. -/
def pathLe (a b : PathC) : Prop := partsLeB a b = true

instance : DecidableRel pathLe := fun a b => instDecidableEqBool (partsLeB a b) true

instance : IsTotal PathC pathLe := ⟨partsLeB_total⟩

instance : IsTrans PathC pathLe := ⟨fun _ _ _ => partsLeB_trans⟩

instance : IsAntisymm PathC pathLe := ⟨fun _ _ => partsLeB_antisymm⟩

/-! ### File discovery: `iter_dngs` (cli.py lines 134-154) -/

/-- One entry of the recursive directory listing produced by
`root.rglob("*")`: a path plus whether it is a regular file. -/
structure FSEntry where
  path : PathC
  isFile : Bool
deriving DecidableEq

/-- The extension set `DNG_EXTS` (cli.py line 44). -/
def DNG_EXTS : List String := [".dng"]

/-- Python `str.lower()` applied characterwise. -/
def lowerStr (s : String) : String := String.mk (s.data.map Char.toLower)

/-- Index of the last `'.'` in a name, Python `name.rfind('.')` (as an
`Option` instead of `-1`). -/
def lastDotIdx (l : List Char) : Option Nat :=
  match l.reverse.findIdx? (· = '.') with
  | none => none
  | some j => some (l.length - 1 - j)

/-- Python `PurePath.suffix`: the substring of the final component from its
last dot, empty when the dot is leading, trailing or absent. -/
def pySuffix (name : String) : String :=
  match lastDotIdx name.data with
  | none => ""
  | some i =>
      if 0 < i ∧ i < name.data.length - 1 then String.mk (name.data.drop i) else ""

/-- The filter of cli.py line 147:
`p.is_file() and p.suffix.lower() in DNG_EXTS`, applied to the `rglob`
listing and keeping the paths. -/
def matchingFiles (entries : List FSEntry) : List PathC :=
  (entries.filter fun e =>
    e.isFile && DNG_EXTS.contains (lowerStr (pySuffix (pathName e.path)))).map FSEntry.path

/-- `iter_dngs` (cli.py lines 134-154): collect matching files in listing
order, then `dngs.sort()`.  Python's `list.sort` and insertion sort produce
the same list for a total, transitive, antisymmetric order, so the sorted
result is rendered with `List.insertionSort`. -/
def iter_dngs (entries : List FSEntry) : List PathC :=
  List.insertionSort pathLe (matchingFiles entries)

/-- Absolute path rendered as Python `str(path)`. -/
def joinPath (p : PathC) : String := "/" ++ String.intercalate "/" p

/-- Comparison of paths by their rendered full path strings. -/
def joinLe (a b : PathC) : Prop := strLeB (joinPath a).data (joinPath b).data = true

instance : DecidableRel joinLe := fun a b =>
  instDecidableEqBool (strLeB (joinPath a).data (joinPath b).data) true

/-- Modelled from the spec: "a sequence of file paths sorted in a total,
deterministic order (lexicographic by full path)".  Identical to `iter_dngs`
except that the sort key is the full path string rather than the tuple of
path components used by Python's `Path` ordering. -/
def iter_dngs_spec (entries : List FSEntry) : List PathC :=
  List.insertionSort joinLe (matchingFiles entries)

/-! ### Claim C1: global export counter and filename uniqueness -/

/-- C1: over any grouped input, the export driver assigns a single global
counter starting at 1, incremented once per exported file in group-then-file
order, so the indices used are exactly `1..N` for `N` total files; each
output filename is the sanitized group name, an underscore, the zero-padded
6-digit counter and the `.jpg` extension; and consequently the produced
output filenames are pairwise distinct. -/
theorem export_indices_exact_and_names_unique (gs : List (PathC × List PathC)) :
    (exportLoop gs 0).map Prod.fst = List.range' 1 (totalFiles gs) ∧
    (∀ pr ∈ exportLoop gs 0, ∃ g ∈ gs,
      pr.2 = mkName (safe_name (pathName g.1)) pr.1) ∧
    ((exportLoop gs 0).map Prod.snd).Nodup :=
  ⟨exportLoop_fst gs 0, fun _ h => exportLoop_form h, exportLoop_snd_nodup gs⟩

/-- Witness for C1: the single output of a one-file group carries index 1
and the sanitized-group-name + padded-counter + extension filename. -/
theorem export_indices_exact_and_names_unique_witness :
    ∃ g ∈ [((["d", "t1"], [["d", "t1", "a.dng"]]) : PathC × List PathC)],
      ((1, "t1_000001.jpg") : Nat × String).2 =
        mkName (safe_name (pathName g.1)) ((1, "t1_000001.jpg") : Nat × String).1 :=
  (export_indices_exact_and_names_unique [((["d", "t1"], [["d", "t1", "a.dng"]]))]).2.1
    (1, "t1_000001.jpg") (by decide)

/-! ### Claim C3: discovery order -/

theorem iter_dngs_perm (entries : List FSEntry) :
    List.Perm (iter_dngs entries) (matchingFiles entries) :=
  List.perm_insertionSort pathLe (matchingFiles entries)

theorem iter_dngs_sorted (entries : List FSEntry) :
    (iter_dngs entries).Sorted pathLe :=
  List.sorted_insertionSort pathLe (matchingFiles entries)

/-- C3 (amended): discovery returns exactly the matching regular files
(extension matched case-insensitively against the configured set), sorted in
the total, deterministic order of Python `Path` objects — lexicographic by
the tuple of path components — and any sorted arrangement of the matching
files is equal to it, so repeated discovery over an unchanged tree yields
the identical ordered sequence. -/
theorem iter_dngs_deterministic_sorted (entries : List FSEntry) :
    List.Perm (iter_dngs entries) (matchingFiles entries) ∧
    (iter_dngs entries).Sorted pathLe ∧
    ∀ l, List.Perm l (matchingFiles entries) → l.Sorted pathLe →
      l = iter_dngs entries :=
  ⟨iter_dngs_perm entries, iter_dngs_sorted entries, fun _l hp hs =>
    List.eq_of_perm_of_sorted (hp.trans (iter_dngs_perm entries).symm) hs
      (iter_dngs_sorted entries)⟩

/-- A two-file tree in which the component-tuple order used by the code and
the full-path-string order claimed by the spec disagree: as strings,
`"/d/a+x/c.dng" < "/d/a/b.dng"` because `'+' < '/'`, but as component
tuples `["d","a","b.dng"] < ["d","a+x","c.dng"]` because `"a" < "a+x"`. -/
def c3Entries : List FSEntry :=
  [⟨["d", "a", "b.dng"], true⟩, ⟨["d", "a+x", "c.dng"], true⟩]

/-- C3 (counterexample): on `c3Entries` the code's discovery order differs
from the spec's claimed "lexicographic by full path string" order, so
discovery is not sorted lexicographically by full path string. -/
theorem iter_dngs_not_string_sorted :
    iter_dngs c3Entries = [["d", "a", "b.dng"], ["d", "a+x", "c.dng"]] ∧
    iter_dngs_spec c3Entries = [["d", "a+x", "c.dng"], ["d", "a", "b.dng"]] ∧
    ¬ (iter_dngs c3Entries).Sorted joinLe := by
  refine ⟨by decide, by decide, by decide⟩

/-- Witness for C3 (amended), at the concrete tree `c3Entries`. -/
theorem iter_dngs_deterministic_sorted_witness :
    iter_dngs c3Entries = [["d", "a", "b.dng"], ["d", "a+x", "c.dng"]] :=
  ((iter_dngs_deterministic_sorted c3Entries).2.2
    [["d", "a", "b.dng"], ["d", "a+x", "c.dng"]] (by decide) (by decide)).symm

/-! ### Grouping by parent directory: `group_by_parent_dir`
(cli.py lines 157-182) -/

/-- One step of the dict-building loop of cli.py lines 171-173:
`groups.setdefault(p.parent, []).append(p)`, on an association list in
insertion order. -/
def addFile (gs : List (PathC × List PathC)) (p : PathC) : List (PathC × List PathC) :=
  match gs with
  | [] => [(p.dropLast, [p])]
  | (k, fs) :: rest =>
      if k = p.dropLast then (k, fs ++ [p]) :: rest else (k, fs) :: addFile rest p

/-- The key of `sorted(groups.items(), key=lambda kv: str(kv[0]))`
(cli.py line 176): groups compared by the rendered parent path string. -/
def groupKeyLe (a b : PathC × List PathC) : Prop :=
  strLeB (joinPath a.1).data (joinPath b.1).data = true

instance : DecidableRel groupKeyLe := fun a b =>
  instDecidableEqBool (strLeB (joinPath a.1).data (joinPath b.1).data) true

instance : IsTotal (PathC × List PathC) groupKeyLe :=
  ⟨fun a b => strLeB_total (joinPath a.1).data (joinPath b.1).data⟩

instance : IsTrans (PathC × List PathC) groupKeyLe :=
  ⟨fun _ _ _ => strLeB_trans⟩

/-- `group_by_parent_dir` (cli.py lines 157-182): bucket the files by parent
directory in first-seen order, sort the buckets by parent path string, then
sort the files inside each bucket.  Python's stable `sorted`/`list.sort` are
rendered as insertion sort, which agrees with them on every input here:
the bucket keys are pairwise distinct and the inner order is antisymmetric,
so the sorted result is unique up to the order, independently of the
algorithm. -/
def group_by_parent_dir (dngs : List PathC) : List (PathC × List PathC) :=
  (List.insertionSort groupKeyLe (dngs.foldl addFile [])).map
    fun g => (g.1, List.insertionSort pathLe g.2)

theorem addFile_flatten (gs : List (PathC × List PathC)) (p : PathC) :
    List.Perm ((addFile gs p).map Prod.snd).flatten
      (((gs.map Prod.snd).flatten) ++ [p]) := by
  induction gs with
  | nil => simp [addFile]
  | cons g rest ih =>
      obtain ⟨k, fs⟩ := g
      rw [addFile]
      split
      · simp only [List.map_cons, List.flatten_cons, List.append_assoc]
        exact List.Perm.append_left fs List.perm_append_comm
      · simp only [List.map_cons, List.flatten_cons, List.append_assoc]
        exact List.Perm.append_left fs ih

theorem foldl_addFile_flatten (ds : List PathC) (gs : List (PathC × List PathC)) :
    List.Perm ((ds.foldl addFile gs).map Prod.snd).flatten
      ((gs.map Prod.snd).flatten ++ ds) := by
  induction ds generalizing gs with
  | nil => simp
  | cons p ds ih =>
      rw [List.foldl_cons]
      refine (ih (addFile gs p)).trans ?_
      have hsplit : (gs.map Prod.snd).flatten ++ [p] ++ ds =
          (gs.map Prod.snd).flatten ++ p :: ds := by
        rw [List.append_assoc]
        rfl
      rw [← hsplit]
      exact (addFile_flatten gs p).append_right ds

theorem flatten_map_innerSort_perm (l : List (PathC × List PathC)) :
    List.Perm ((l.map fun g => (g.1, List.insertionSort pathLe g.2)).map Prod.snd).flatten
      ((l.map Prod.snd).flatten) := by
  induction l with
  | nil => rfl
  | cons g rest ih =>
      simp only [List.map_cons, List.flatten_cons]
      exact (List.perm_insertionSort pathLe g.2).append ih

theorem addFile_nonempty {gs : List (PathC × List PathC)} {p : PathC}
    (h : ∀ g ∈ gs, g.2 ≠ []) : ∀ g ∈ addFile gs p, g.2 ≠ [] := by
  induction gs with
  | nil =>
      intro g hg
      rw [addFile] at hg
      rcases List.mem_singleton.mp hg with rfl
      simp
  | cons g0 rest ih =>
      obtain ⟨k, fs⟩ := g0
      intro g hg
      rw [addFile] at hg
      split at hg
      · rcases List.mem_cons.mp hg with rfl | hg'
        · simp
        · exact h g (List.mem_cons_of_mem _ hg')
      · rcases List.mem_cons.mp hg with rfl | hg'
        · exact h (k, fs) (List.mem_cons_self _ _)
        · exact ih (fun g' hg' => h g' (List.mem_cons_of_mem _ hg')) g hg'

theorem foldl_addFile_nonempty (ds : List PathC) (gs : List (PathC × List PathC))
    (h : ∀ g ∈ gs, g.2 ≠ []) : ∀ g ∈ ds.foldl addFile gs, g.2 ≠ [] := by
  induction ds generalizing gs with
  | nil => exact h
  | cons p ds ih => exact ih (addFile gs p) (addFile_nonempty h)

theorem addFile_parent {gs : List (PathC × List PathC)} {p : PathC}
    (h : ∀ g ∈ gs, ∀ q ∈ g.2, q.dropLast = g.1) :
    ∀ g ∈ addFile gs p, ∀ q ∈ g.2, q.dropLast = g.1 := by
  induction gs with
  | nil =>
      intro g hg q hq
      rw [addFile] at hg
      rcases List.mem_singleton.mp hg with rfl
      rcases List.mem_singleton.mp hq with rfl
      rfl
  | cons g0 rest ih =>
      obtain ⟨k, fs⟩ := g0
      intro g hg q hq
      rw [addFile] at hg
      by_cases hk : k = p.dropLast
      · rw [if_pos hk] at hg
        rcases List.mem_cons.mp hg with rfl | hg'
        · rcases List.mem_append.mp hq with hq' | hq'
          · exact h (k, fs) (List.mem_cons_self _ _) q hq'
          · rcases List.mem_singleton.mp hq' with rfl
            exact hk.symm
        · exact h g (List.mem_cons_of_mem _ hg') q hq
      · rw [if_neg hk] at hg
        rcases List.mem_cons.mp hg with rfl | hg'
        · exact h (k, fs) (List.mem_cons_self _ _) q hq
        · exact ih (fun g' hg'' => h g' (List.mem_cons_of_mem _ hg'')) g hg' q hq

theorem foldl_addFile_parent (ds : List PathC) (gs : List (PathC × List PathC))
    (h : ∀ g ∈ gs, ∀ q ∈ g.2, q.dropLast = g.1) :
    ∀ g ∈ ds.foldl addFile gs, ∀ q ∈ g.2, q.dropLast = g.1 := by
  induction ds generalizing gs with
  | nil => exact h
  | cons p ds ih => exact ih (addFile gs p) (addFile_parent h)

/-- C5: grouping is a partition — the grouped files are a permutation of the
input (no file duplicated or dropped, each in exactly one group), groups are
ordered by parent-directory path string, files inside each group are sorted,
every group is nonempty, and every file sits in the group of its own parent
directory. -/
theorem group_by_parent_dir_partition (dngs : List PathC) :
    List.Perm ((group_by_parent_dir dngs).map Prod.snd).flatten dngs ∧
    (group_by_parent_dir dngs).Sorted groupKeyLe ∧
    (∀ g ∈ group_by_parent_dir dngs, g.2.Sorted pathLe) ∧
    (∀ g ∈ group_by_parent_dir dngs, g.2 ≠ []) ∧
    (∀ g ∈ group_by_parent_dir dngs, ∀ p ∈ g.2, p.dropLast = g.1) := by
  have hbase := foldl_addFile_flatten dngs []
  simp only [List.map_nil, List.flatten_nil, List.nil_append] at hbase
  have hsortperm : List.Perm (List.insertionSort groupKeyLe (dngs.foldl addFile []))
      (dngs.foldl addFile []) := List.perm_insertionSort groupKeyLe _
  refine ⟨?_, ?_, ?_, ?_, ?_⟩
  · refine (flatten_map_innerSort_perm _).trans ?_
    refine (List.Perm.flatten (hsortperm.map Prod.snd)).trans hbase
  · have hs := List.sorted_insertionSort groupKeyLe (dngs.foldl addFile [])
    rw [List.Sorted, group_by_parent_dir, List.pairwise_map]
    exact hs.imp fun h => h
  · intro g hg
    rw [group_by_parent_dir] at hg
    obtain ⟨g', _, rfl⟩ := List.mem_map.mp hg
    exact List.sorted_insertionSort pathLe g'.2
  · intro g hg
    rw [group_by_parent_dir] at hg
    obtain ⟨g', hg', rfl⟩ := List.mem_map.mp hg
    have hne := foldl_addFile_nonempty dngs [] (by simp) g' (hsortperm.mem_iff.mp hg')
    intro hcon
    have hcon2 : List.insertionSort pathLe g'.2 = [] := hcon
    have hlen : g'.2.length = 0 := by
      rw [← (List.perm_insertionSort pathLe g'.2).length_eq, hcon2]
      rfl
    exact hne (List.eq_nil_of_length_eq_zero hlen)
  · intro g hg p hp
    rw [group_by_parent_dir] at hg
    obtain ⟨g', hg', rfl⟩ := List.mem_map.mp hg
    exact foldl_addFile_parent dngs [] (by simp) g' (hsortperm.mem_iff.mp hg') p
      ((List.perm_insertionSort pathLe g'.2).mem_iff.mp hp)

/-- Witness for C5, at a concrete three-file, two-directory input: the
second produced group is nonempty. -/
theorem group_by_parent_dir_partition_witness :
    ((["d", "t2"], [["d", "t2", "c.dng"]]) : PathC × List PathC).2 ≠ [] :=
  (group_by_parent_dir_partition
    [["d", "t1", "a.dng"], ["d", "t2", "c.dng"], ["d", "t1", "b.dng"]]).2.2.2.1
    (["d", "t2"], [["d", "t2", "c.dng"]]) (by decide)

/-! ### The export loop with the external converter
(cli.py lines 235-283 and 453-491) -/

/-- Outcome of one `darktable-cli` invocation
(`subprocess.run(..., check=True)`): success, or a `CalledProcessError`
carrying the captured stderr. -/
inductive ConvResult
  | ok
  | fail (stderr : String)
deriving DecidableEq

/-- The `SystemExit` message raised at cli.py line 485:
`f"darktable-cli failed on: {f}\n{stderr}"`. -/
def failMsg (f : PathC) (stderr : String) : String :=
  "darktable-cli failed on: " ++ joinPath f ++ "\n" ++ stderr

/-- The inner `for f in files` loop of cli.py lines 468-487 under a converter
oracle `conv`: returns the output names appended to `exported` so far, and
the fatal message if some invocation failed (which aborts everything). -/
def exportFilesRun (conv : PathC → ConvResult) (seqName : String) :
    List PathC → Nat → List String × Option String
  | [], _ => ([], none)
  | f :: fs, idx =>
      match conv f with
      | .fail e => ([], some (failMsg f e))
      | .ok =>
          let r := exportFilesRun conv seqName fs (idx + 1)
          (mkName seqName (idx + 1) :: r.1, r.2)

/-- The outer export loop of cli.py lines 465-491 under a converter oracle:
on a failure the `SystemExit` propagates, keeping the outputs already
written. -/
def exportGroupsRun (conv : PathC → ConvResult) :
    List (PathC × List PathC) → Nat → List String × Option String
  | [], _ => ([], none)
  | (parent, files) :: rest, idx =>
      let r := exportFilesRun conv (safe_name (pathName parent)) files idx
      match r.2 with
      | some e => (r.1, some e)
      | none =>
          let r2 := exportGroupsRun conv rest (idx + files.length)
          (r.1 ++ r2.1, r2.2)

/-- The group-then-file traversal order of the export loop, flattened:
each file tagged with its group's sanitized sequence name. -/
def flatFiles (gs : List (PathC × List PathC)) : List (String × PathC) :=
  gs.flatMap fun g => g.2.map fun f => (safe_name (pathName g.1), f)

/-- The export loop on the flattened traversal. -/
def exportFlatRun (conv : PathC → ConvResult) :
    List (String × PathC) → Nat → List String × Option String
  | [], _ => ([], none)
  | (s, f) :: rest, idx =>
      match conv f with
      | .fail e => ([], some (failMsg f e))
      | .ok =>
          let r := exportFlatRun conv rest (idx + 1)
          (mkName s (idx + 1) :: r.1, r.2)

/-- Output names for a fully successful stretch of the flattened traversal. -/
def okNames : List (String × PathC) → Nat → List String
  | [], _ => []
  | (s, _) :: rest, idx => mkName s (idx + 1) :: okNames rest (idx + 1)

theorem exportFlatRun_append (conv : PathC → ConvResult) (seqName : String)
    (files : List PathC) (rest : List (String × PathC)) (idx : Nat) :
    exportFlatRun conv ((files.map fun f => (seqName, f)) ++ rest) idx =
      (let r := exportFilesRun conv seqName files idx
       match r.2 with
       | some e => (r.1, some e)
       | none =>
           let r2 := exportFlatRun conv rest (idx + files.length)
           (r.1 ++ r2.1, r2.2)) := by
  induction files generalizing idx with
  | nil => simp [exportFilesRun]
  | cons f fs ih =>
      rw [List.map_cons, List.cons_append, exportFlatRun, exportFilesRun]
      cases hconv : conv f with
      | fail e => rfl
      | ok =>
          simp only [List.append_eq]
          rw [ih (idx + 1)]
          cases h2 : (exportFilesRun conv seqName fs (idx + 1)).2 with
          | some e => simp [h2]
          | none =>
              simp only [h2]
              have harr : idx + 1 + fs.length = idx + (fs.length + 1) := by omega
              simp [harr]

theorem exportGroupsRun_eq_flat (conv : PathC → ConvResult)
    (gs : List (PathC × List PathC)) (idx : Nat) :
    exportGroupsRun conv gs idx = exportFlatRun conv (flatFiles gs) idx := by
  induction gs generalizing idx with
  | nil => rfl
  | cons g rest ih =>
      obtain ⟨parent, files⟩ := g
      rw [exportGroupsRun, flatFiles, List.flatMap_cons, exportFlatRun_append]
      simp only
      cases h2 : (exportFilesRun conv (safe_name (pathName parent)) files idx).2 with
      | some e => rfl
      | none =>
          rw [← flatFiles, ih]

theorem exportFlatRun_firstFail (conv : PathC → ConvResult)
    (pre : List (String × PathC)) (s : String) (f : PathC)
    (post : List (String × PathC)) (e : String) (idx : Nat)
    (hpre : ∀ q ∈ pre, conv q.2 = ConvResult.ok)
    (hf : conv f = ConvResult.fail e) :
    exportFlatRun conv (pre ++ (s, f) :: post) idx =
      (okNames pre idx, some (failMsg f e)) := by
  induction pre generalizing idx with
  | nil =>
      rw [List.nil_append, exportFlatRun, hf, okNames]
  | cons q pre ih =>
      obtain ⟨s', f'⟩ := q
      rw [List.cons_append, exportFlatRun,
        hpre (s', f') (List.mem_cons_self _ _),
        ih (idx + 1) (fun q hq => hpre q (List.mem_cons_of_mem _ hq)), okNames]

/-- C6: if some converter invocation fails — the first such file being `f`,
after a successfully converted stretch `pre` of the group-then-file
traversal — then the run aborts with the fatal message naming `f` and the
captured stderr, exactly the outputs of the files before `f` have been
written (and stay in place, the model never deletes), and no file after `f`
is exported. -/
theorem export_failfast (conv : PathC → ConvResult)
    (gs : List (PathC × List PathC)) (pre : List (String × PathC))
    (s : String) (f : PathC) (post : List (String × PathC)) (e : String)
    (hsplit : flatFiles gs = pre ++ (s, f) :: post)
    (hpre : ∀ q ∈ pre, conv q.2 = ConvResult.ok)
    (hf : conv f = ConvResult.fail e) :
    exportGroupsRun conv gs 0 =
      (okNames pre 0, some ("darktable-cli failed on: " ++ joinPath f ++ "\n" ++ e)) := by
  rw [exportGroupsRun_eq_flat, hsplit]
  exact exportFlatRun_firstFail conv pre s f post e 0 hpre hf

/-- Witness for C6: a two-file group where the second conversion fails with
stderr `"boom"`; the first file's output is kept and the fatal message names
the failing file and the stderr text. -/
theorem export_failfast_witness :
    exportGroupsRun
      (fun p => if p = ["d", "take001", "b.dng"] then ConvResult.fail "boom"
        else ConvResult.ok)
      [(["d", "take001"], [["d", "take001", "a.dng"], ["d", "take001", "b.dng"]])] 0 =
      (["take001_000001.jpg"],
        some ("darktable-cli failed on: " ++ joinPath ["d", "take001", "b.dng"] ++
          "\n" ++ "boom")) := by
  have h := export_failfast
    (fun p => if p = ["d", "take001", "b.dng"] then ConvResult.fail "boom"
      else ConvResult.ok)
    [(["d", "take001"], [["d", "take001", "a.dng"], ["d", "take001", "b.dng"]])]
    [("take001", ["d", "take001", "a.dng"])] "take001" ["d", "take001", "b.dng"] [] "boom"
    (by decide) (by decide) (by decide)
  rw [h]
  decide

/-! ### Safety validator and the pipeline driver `main()`
(cli.py lines 94-127 and 330-524) -/

/-- The fixed deny list of cli.py lines 108-114. -/
def dangerousDirs : List PathC :=
  [[], ["System"], ["Library"], ["Applications"], ["Users"]]

/-- `is_dangerous_directory` (cli.py lines 94-127), on the resolved target
path and the resolved home directory: membership in the fixed set, or exact
equality with home. -/
def is_dangerous_directory (p : PathC) (home : PathC) : Bool :=
  decide (p ∈ dangerousDirs) || decide (p = home)

/-- The `SystemExit` message of cli.py line 403. -/
def notADirectoryMsg (p : PathC) : String := "Not a directory: " ++ joinPath p

/-- The `SystemExit` message of cli.py lines 407-410. -/
def refusingMsg (p : PathC) : String :=
  "Refusing to run in a high risk directory: " ++ joinPath p ++ "\n" ++
    "Copy your dataset into a project folder and run splatpack there."

/-- The `SystemExit` message of `which_or_die` (cli.py lines 86-90). -/
def missingToolMsg : String :=
  "Missing required tool: darktable-cli" ++ "\n" ++
    "Install darktable (for darktable-cli) and ensure it is on PATH." ++ "\n" ++
    "macOS: brew install darktable"

/-- The `SystemExit` message of cli.py line 418. -/
def noInputsMsg (p : PathC) : String := "No DNG files found under: " ++ joinPath p

/-- The command-line flags of `main()` that steer control flow. -/
structure Args where
  dryRun : Bool
  zipFlag : Bool
deriving DecidableEq

/-- The environment one run of `main()` observes: the resolved dataset path
and its filesystem status, the home directory, whether `darktable-cli` is on
PATH, the recursive listing under the dataset, and the converter's behavior
per input file. -/
structure Env where
  datasetExists : Bool
  datasetIsDir : Bool
  resolved : PathC
  home : PathC
  converterFound : Bool
  entries : List FSEntry
  conv : PathC → ConvResult

/-- Filesystem mutations `main()` performs under the dataset directory, in
program order. -/
inductive Event
  | mkdirImages
  | exportImage (name : String)
  | writeJobJson
  | writeManifest
  | zipJob
deriving DecidableEq

/-- The straight-line body of `main()` (cli.py lines 400-517): validate the
dataset path, the deny list, then the converter on PATH; discover inputs and
fail when there are none; short-circuit on dry-run before any mutation;
otherwise create the images directory, export every file, write `job.json`,
write `manifest.txt`, and optionally zip.  Returns the ordered mutation
trace and the fatal `SystemExit` message, if one was raised. -/
def mainModel (args : Args) (env : Env) : List Event × Option String :=
  if !(env.datasetExists && env.datasetIsDir) then
    ([], some (notADirectoryMsg env.resolved))
  else if is_dangerous_directory env.resolved env.home then
    ([], some (refusingMsg env.resolved))
  else if !env.converterFound then
    ([], some missingToolMsg)
  else
    let dngs := iter_dngs env.entries
    if dngs.isEmpty then ([], some (noInputsMsg env.resolved))
    else
      let groups := group_by_parent_dir dngs
      if args.dryRun then ([], none)
      else
        let r := exportGroupsRun env.conv groups 0
        match r.2 with
        | some msg => (Event.mkdirImages :: r.1.map Event.exportImage, some msg)
        | none =>
            (Event.mkdirImages :: r.1.map Event.exportImage ++
              [Event.writeJobJson, Event.writeManifest] ++
              (if args.zipFlag then [Event.zipJob] else []), none)

theorem notADirectoryMsg_ne_missing (p : PathC) :
    notADirectoryMsg p ≠ missingToolMsg := by
  intro h
  have hd : (notADirectoryMsg p).data.head? = missingToolMsg.data.head? := by rw [h]
  rw [notADirectoryMsg, string_data_append] at hd
  have h1 : ("Not a directory: " : String).data =
      'N' :: ("ot a directory: " : String).data := by decide
  rw [h1, List.cons_append] at hd
  have h2 : missingToolMsg.data.head? = some 'M' := by decide
  rw [h2] at hd
  simp at hd

theorem refusingMsg_ne_missing (p : PathC) : refusingMsg p ≠ missingToolMsg := by
  intro h
  have hd : (refusingMsg p).data.head? = missingToolMsg.data.head? := by rw [h]
  rw [refusingMsg, string_data_append, string_data_append, string_data_append] at hd
  have h1 : ("Refusing to run in a high risk directory: " : String).data =
      'R' :: ("efusing to run in a high risk directory: " : String).data := by decide
  rw [h1, List.cons_append] at hd
  have h2 : missingToolMsg.data.head? = some 'M' := by decide
  rw [h2] at hd
  simp at hd

/-! ### Claim C8: the deny list -/

/-- C8: a target directory is rejected exactly when its resolved path is one
of the fixed root-level system locations or equals the home directory
exactly; a proper subdirectory of home outside the fixed set is allowed; and
a rejected run fails before any discovery (the result does not depend on the
directory listing or the converter) with an empty mutation trace. -/
theorem dangerous_directory_characterization (p home sub : PathC)
    (args : Args) (env : Env) :
    (is_dangerous_directory p home = true ↔ p ∈ dangerousDirs ∨ p = home) ∧
    (sub ≠ [] → (home ++ sub) ∉ dangerousDirs →
      is_dangerous_directory (home ++ sub) home = false) ∧
    (env.datasetExists = true → env.datasetIsDir = true →
      is_dangerous_directory env.resolved env.home = true →
      ∀ entries conv,
        mainModel args { env with entries := entries, conv := conv } =
          ([], some (refusingMsg env.resolved))) := by
  refine ⟨?_, ?_, ?_⟩
  · simp [is_dangerous_directory]
  · intro hsub hmem
    have hne : home ++ sub ≠ home := by
      intro hcon
      have := congrArg List.length hcon
      rw [List.length_append] at this
      have : sub.length = 0 := by omega
      exact hsub (List.eq_nil_of_length_eq_zero this)
    simp [is_dangerous_directory, hmem, hne]
  · intro h1 h2 h3 entries conv
    simp [mainModel, h1, h2, h3]

/-- Witness for C8: the dataset directory resolving to the home directory
itself is rejected with the "high risk" fatal error, with no discovery and
no mutation. -/
theorem dangerous_directory_characterization_witness :
    is_dangerous_directory ["Users", "u"] ["Users", "u"] = true ∧
    mainModel ⟨false, false⟩
      ⟨true, true, ["Users", "u"], ["Users", "u"], true, [], fun _ => ConvResult.ok⟩ =
      ([], some (refusingMsg ["Users", "u"])) := by
  constructor
  · exact (dangerous_directory_characterization ["Users", "u"] ["Users", "u"] []
      ⟨false, false⟩
      ⟨true, true, ["Users", "u"], ["Users", "u"], true, [], fun _ => ConvResult.ok⟩).1.mpr
      (Or.inr rfl)
  · exact (dangerous_directory_characterization ["Users", "u"] ["Users", "u"] []
      ⟨false, false⟩
      ⟨true, true, ["Users", "u"], ["Users", "u"], true, [], fun _ => ConvResult.ok⟩).2.2
      rfl rfl (by decide) [] (fun _ => ConvResult.ok)

/-! ### Claim C10: directory checks precede the converter lookup -/

/-- C10: whenever the dataset directory is missing, not a directory, or on
the deny list, `main()` fails with the corresponding directory error before
looking up the converter: the outcome is unchanged if the converter is
absent from PATH, and the reported message is never the missing-tool one. -/
theorem directory_checks_precede_tool_lookup (args : Args) (env : Env)
    (h : env.datasetExists = false ∨ env.datasetIsDir = false ∨
      is_dangerous_directory env.resolved env.home = true) :
    (mainModel args env).2.isSome = true ∧
    mainModel args env = mainModel args { env with converterFound := false } ∧
    (mainModel args env).2 ≠ some missingToolMsg := by
  by_cases hv : (env.datasetExists && env.datasetIsDir) = true
  · have hdang : is_dangerous_directory env.resolved env.home = true := by
      rcases h with h | h | h
      · rw [h] at hv
        simp at hv
      · rw [h] at hv
        simp at hv
      · exact h
    have he1 : mainModel args env = ([], some (refusingMsg env.resolved)) := by
      simp only [mainModel, hv, Bool.not_true, Bool.false_eq_true, if_false, hdang, if_true]
    have he2 : mainModel args { env with converterFound := false } =
        ([], some (refusingMsg env.resolved)) := by
      simp only [mainModel, hv, Bool.not_true, Bool.false_eq_true, if_false, hdang, if_true]
    refine ⟨by rw [he1]; rfl, by rw [he1, he2], ?_⟩
    rw [he1]
    intro hcon
    exact refusingMsg_ne_missing env.resolved (Option.some_inj.mp hcon)
  · have he1 : mainModel args env = ([], some (notADirectoryMsg env.resolved)) := by
      simp only [mainModel, hv]
      rfl
    have he2 : mainModel args { env with converterFound := false } =
        ([], some (notADirectoryMsg env.resolved)) := by
      simp only [mainModel, hv]
      rfl
    refine ⟨by rw [he1]; rfl, by rw [he1, he2], ?_⟩
    rw [he1]
    intro hcon
    exact notADirectoryMsg_ne_missing env.resolved (Option.some_inj.mp hcon)

/-- Witness for C10: a missing dataset directory with the converter also
missing reports the directory error, not the missing-tool error. -/
theorem directory_checks_precede_tool_lookup_witness :
    (mainModel ⟨false, false⟩
      ⟨false, false, ["x"], ["Users", "u"], false, [], fun _ => ConvResult.ok⟩).2 ≠
      some missingToolMsg :=
  (directory_checks_precede_tool_lookup ⟨false, false⟩
    ⟨false, false, ["x"], ["Users", "u"], false, [], fun _ => ConvResult.ok⟩
    (Or.inl rfl)).2.2

/-! ### Claim C7: zero inputs is fatal, also under dry-run -/

/-- C7: when the checks pass but discovery finds no matching input file,
`main()` terminates with the "no inputs" fatal error, with an empty mutation
trace (no job directory, no artifact), for every combination of flags —
including dry-run. -/
theorem no_inputs_fatal (args : Args) (env : Env)
    (h1 : env.datasetExists = true) (h2 : env.datasetIsDir = true)
    (h3 : is_dangerous_directory env.resolved env.home = false)
    (h4 : env.converterFound = true)
    (h5 : iter_dngs env.entries = []) :
    mainModel args env = ([], some (noInputsMsg env.resolved)) := by
  simp [mainModel, h1, h2, h3, h4, h5]

/-- Witness for C7: an empty listing under dry-run still hits the "no
inputs" fatal error before anything is created. -/
theorem no_inputs_fatal_witness :
    mainModel ⟨true, true⟩
      ⟨true, true, ["data"], ["Users", "u"], true, [], fun _ => ConvResult.ok⟩ =
      ([], some (noInputsMsg ["data"])) :=
  no_inputs_fatal ⟨true, true⟩
    ⟨true, true, ["data"], ["Users", "u"], true, [], fun _ => ConvResult.ok⟩
    rfl rfl (by decide) rfl (by decide)

/-! ### Claim C9: dry-run writes nothing -/

/-- C9: with the dry-run flag set and at least one input discovered, the run
returns after discovery and logging with an empty mutation trace and no
error: no job directory, no image, no manifest, no metadata, no archive. -/
theorem dry_run_no_writes (args : Args) (env : Env)
    (h1 : env.datasetExists = true) (h2 : env.datasetIsDir = true)
    (h3 : is_dangerous_directory env.resolved env.home = false)
    (h4 : env.converterFound = true)
    (h5 : (iter_dngs env.entries).isEmpty = false)
    (h6 : args.dryRun = true) :
    mainModel args env = ([], none) := by
  simp [mainModel, h1, h2, h3, h4, h5, h6]

/-- The environment of a small successful run: one discovered file in one
sequence directory, a converter that always succeeds. -/
def okEnv : Env :=
  ⟨true, true, ["data"], ["Users", "u"], true,
    [⟨["data", "take001", "a.dng"], true⟩], fun _ => ConvResult.ok⟩

/-- Witness for C9, at the concrete one-file environment. -/
theorem dry_run_no_writes_witness :
    mainModel ⟨true, false⟩ okEnv = ([], none) :=
  dry_run_no_writes ⟨true, false⟩ okEnv rfl rfl (by decide) rfl (by decide) rfl

/-! ### Claim C2: artifact write order -/

/-- C2 (amended): in a successful non-dry run the mutation order is: the
images directory and all image exports first, then the metadata record
`job.json`, then the manifest, and — when the zip flag is set — the archive
strictly last, after images, metadata and manifest all exist. -/
theorem artifact_write_order (args : Args) (env : Env)
    (h1 : env.datasetExists = true) (h2 : env.datasetIsDir = true)
    (h3 : is_dangerous_directory env.resolved env.home = false)
    (h4 : env.converterFound = true)
    (h5 : (iter_dngs env.entries).isEmpty = false)
    (h6 : args.dryRun = false)
    (h7 : (exportGroupsRun env.conv (group_by_parent_dir (iter_dngs env.entries)) 0).2 =
      none) :
    mainModel args env =
      (Event.mkdirImages ::
        (exportGroupsRun env.conv (group_by_parent_dir (iter_dngs env.entries)) 0).1.map
          Event.exportImage ++
        [Event.writeJobJson, Event.writeManifest] ++
        (if args.zipFlag then [Event.zipJob] else []), none) := by
  simp [mainModel, h1, h2, h3, h4, h5, h6, h7]

/-- Witness for C2 (amended), at the concrete one-file environment with the
zip flag set. -/
theorem artifact_write_order_witness :
    mainModel ⟨false, true⟩ okEnv =
      (Event.mkdirImages ::
        (exportGroupsRun okEnv.conv (group_by_parent_dir (iter_dngs okEnv.entries)) 0).1.map
          Event.exportImage ++
        [Event.writeJobJson, Event.writeManifest] ++
        (if (Args.mk false true).zipFlag then [Event.zipJob] else []), none) :=
  artifact_write_order ⟨false, true⟩ okEnv rfl rfl (by decide) rfl (by decide) rfl
    (by decide)

/-- C2 (counterexample): on the concrete successful run the trace is
`[mkdirImages, exportImage _, writeJobJson, writeManifest]` — the metadata
record `job.json` is written before `manifest.txt`, not after it as the
claim's "images, then manifest, then metadata" order requires. -/
theorem manifest_before_metadata_cex :
    (mainModel ⟨false, false⟩ okEnv).1 =
      [Event.mkdirImages, Event.exportImage "take001_000001.jpg",
        Event.writeJobJson, Event.writeManifest] ∧
    ¬ ((mainModel ⟨false, false⟩ okEnv).1.indexOf Event.writeManifest <
        (mainModel ⟨false, false⟩ okEnv).1.indexOf Event.writeJobJson) := by
  constructor
  · decide
  · decide

/-! ### Claim C4: sanitization -/

/-- C4 (amended): `safe_name` is idempotent; a non-empty input of only
disallowed characters that is not entirely whitespace collapses to a
non-empty run of underscores (an all-whitespace input instead trims to
nothing and yields the placeholder); the result is never the empty string;
an input empty after trimming yields the fixed placeholder `"dataset"`;
the output never contains two adjacent spaces; and every character of the
output is from the allowed set (everything else was mapped to underscore). -/
theorem safe_name_properties :
    (∀ s, safe_name (safe_name s) = safe_name s) ∧
    (∀ s : String, s.data ≠ [] → (∀ c ∈ s.data, allowedChar c = false) →
      (∃ c ∈ s.data, c.isWhitespace = false) →
      (safe_name s).data ≠ [] ∧ ∀ c ∈ (safe_name s).data, c = '_') ∧
    (∀ s, safe_name s ≠ "") ∧
    (∀ s, pyStrip s.data = [] → safe_name s = "dataset") ∧
    (∀ s, hasPair (safe_name s).data = false) ∧
    (∀ s, ∀ c ∈ (safe_name s).data, allowedChar c = true) := by
  refine ⟨safe_name_idem, fun s h1 h2 h3 => safe_name_all_disallowed h1 h2 h3,
    safe_name_never_empty, fun s h => safe_name_of_strip_nil h, ?_, ?_⟩
  · intro s
    by_cases h : pyStrip s.data = []
    · rw [safe_name_of_strip_nil h]
      decide
    · exact (safe_name_data_props s h).2.2.2
  · intro s c hc
    by_cases h : pyStrip s.data = []
    · rw [safe_name_of_strip_nil h] at hc
      have hall : ∀ d ∈ ("dataset" : String).data, allowedChar d = true := by decide
      exact hall c hc
    · exact (safe_name_data_props s h).2.2.1 c hc

/-- C4 (counterexample): the tab character is a non-empty string of only
disallowed characters, yet `safe_name` maps it to `"dataset"`, not to
underscores — the whitespace trim runs before the character map, so an
all-whitespace disallowed input reaches the placeholder branch. -/
theorem safe_name_tab_cex :
    ("\t" : String).data ≠ [] ∧
    (∀ c ∈ ("\t" : String).data, allowedChar c = false) ∧
    safe_name "\t" = "dataset" ∧
    ¬ (∀ c ∈ (safe_name "\t").data, c = '_') := by decide

/-- Witness for C4 (amended): `"##"` consists of disallowed non-whitespace
characters and collapses to underscores. -/
theorem safe_name_properties_witness :
    (safe_name "##").data ≠ [] ∧ ∀ c ∈ (safe_name "##").data, c = '_' :=
  safe_name_properties.2.1 "##" (by decide) (by decide) (by decide)

end Splatpack
